import Mathlib

/-!
Shallow embedding of the core of the `single-multi-line` VS Code extension:
the scanner (`src/parser.ts`) and the transformer (`src/transformer.ts`).
Text buffers are modelled as `List Char`; all functions are direct
translations of the TypeScript source.
-/

set_option maxRecDepth 4000

namespace SML

/-- The ECMAScript whitespace set used by `String.prototype.trim` and the
`\s` regex class: WhiteSpace (TAB, VT, FF, SP, NBSP, ZWNBSP, Zs category)
plus LineTerminator (LF, CR, LS, PS). -/
def isJSWhitespace (c : Char) : Bool :=
  c == ' ' || c == '\t' || c == '\n' || c == '\r' || c == '\x0b' || c == '\x0c' ||
  c.val == 0xA0 || c.val == 0xFEFF || c.val == 0x1680 ||
  (0x2000 ≤ c.val && c.val ≤ 0x200A) || c.val == 0x2028 || c.val == 0x2029 ||
  c.val == 0x202F || c.val == 0x205F || c.val == 0x3000

/-- The character class `[\r\n\t]` removed by `toSingleLine`. -/
def isRNT (c : Char) : Bool :=
  c == '\r' || c == '\n' || c == '\t'

/-- Characters kept by `replace(/[\r\n\t]/g, '')`. -/
def keepChar (c : Char) : Bool := !(isRNT c)

/-- `text.dropWhile` of leading JS whitespace (left half of `String.trim`). -/
def ltrim (l : List Char) : List Char := l.dropWhile isJSWhitespace

/-- Removal of trailing JS whitespace (right half of `String.trim`). -/
def rtrim (l : List Char) : List Char := (l.reverse.dropWhile isJSWhitespace).reverse

/-- JavaScript `String.prototype.trim`: drop whitespace at both ends. -/
def trim (l : List Char) : List Char := ltrim (rtrim l)

/-- `QUOTE_RE = /['"`]/` from `parser.ts`. -/
def isQuote (c : Char) : Bool :=
  c == '\x27' || c == '"' || c == '\x60'

/-- Inline `/[{[(]/` of `findSeparatorIndexes`. -/
def isOpenBracket (c : Char) : Bool :=
  c == '{' || c == '[' || c == '('

/-- Inline `/[}\])]/` of `findSeparatorIndexes`. -/
def isCloseBracket (c : Char) : Bool :=
  c == '}' || c == ']' || c == ')'

/-- `[',', ';'].includes(ch)`. -/
def isCommaSemi (c : Char) : Bool :=
  c == ',' || c == ';'

/-- The quote-tracking state shared by both scanner passes in `parser.ts`:
`(isInString, currentQuote)`.  `currentQuote` is `none` before the first
quote is seen (the TypeScript initialises it to `''`). -/
def quoteStep (st : Bool × Option Char) (ch : Char) : Bool × Option Char :=
  if isQuote ch then
    if !st.1 then (true, some ch)
    else if st.2 == some ch then (false, st.2)
    else st
  else st

/-- Quote state before the character at index `i` is processed. -/
def quoteStateAt (text : List Char) (i : Nat) : Bool × Option Char :=
  (text.take i).foldl quoteStep (false, none)

/-- Whether the scanner is inside a quoted string when it reaches index `i`. -/
def inStringAt (text : List Char) (i : Nat) : Bool :=
  (quoteStateAt text i).1

/-- `types.ts` — `SeparatorLocation`. -/
structure SeparatorLocation where
  index : Nat
  isComma : Bool
deriving DecidableEq, Repr

/-- `types.ts` — `BalancedBlock`.  The `end` field is called `endIdx`
because `end` is a Lean keyword; it is the inclusive index of `}`. -/
structure BalancedBlock where
  start : Nat
  endIdx : Nat
deriving DecidableEq, Repr

/-- `types.ts` — `TextLayout`. -/
inductive TextLayout where
  | SingleLine
  | MultiLine
deriving DecidableEq, Repr

/-- `types.ts` — `TransformOptions`. -/
structure TransformOptions where
  isCommaOnNewLine : Bool
deriving DecidableEq, Repr

/-- `detectLayout` from `parser.ts`: trimmed text containing `\n` or `\r`
is multi-line. -/
def detectLayout (text : List Char) : TextLayout :=
  if (trim text).any (fun c => c == '\n' || c == '\r') then
    TextLayout.MultiLine
  else
    TextLayout.SingleLine

/-- The `isSeparator` condition in `findSeparatorIndexes`, for character
`ch` at the current index with lookahead `next`. -/
def sepPred (ch : Char) (next : Option Char) : Bool :=
  isOpenBracket ch ||
  (isCloseBracket ch && (match next with
    | some n => !(isCommaSemi n)
    | none => false)) ||
  (match next with
    | some n => isCloseBracket n
    | none => false) ||
  isCommaSemi ch

/-- The loop of `findSeparatorIndexes`: `i` is the current index and `st`
the quote state; each out-of-string character satisfying `sepPred` is
recorded, then the quote state is updated. -/
def findSepGo (i : Nat) (st : Bool × Option Char) : List Char → List SeparatorLocation
  | [] => []
  | ch :: rest =>
    (if !st.1 && sepPred ch rest.head? then [⟨i, ch == ','⟩] else []) ++
      findSepGo (i + 1) (quoteStep st ch) rest

/-- `findSeparatorIndexes` from `parser.ts`. -/
def findSeparatorIndexes (text : List Char) : List SeparatorLocation :=
  findSepGo 0 (false, none) text

/-- The loop of `findBalancedBlocks`: `depth` is the brace-nesting counter
(it can go negative), `blockStart` the pending candidate start (`-1` in the
TypeScript is modelled as `none`).  Quote characters that enter or leave a
string, and all in-string characters, are skipped (`continue`). -/
def findBlocksGo (i : Nat) (depth : Int) (blockStart : Option Nat)
    (st : Bool × Option Char) : List Char → List BalancedBlock
  | [] => []
  | ch :: rest =>
    if st.1 || isQuote ch then
      findBlocksGo (i + 1) depth blockStart (quoteStep st ch) rest
    else if ch == '{' then
      findBlocksGo (i + 1) (depth + 1) (if depth == 0 then some i else blockStart)
        (quoteStep st ch) rest
    else if ch == '}' then
      match blockStart with
      | some s =>
        if depth - 1 == 0 then
          ⟨s, i⟩ :: findBlocksGo (i + 1) (depth - 1) none (quoteStep st ch) rest
        else
          findBlocksGo (i + 1) (depth - 1) blockStart (quoteStep st ch) rest
      | none => findBlocksGo (i + 1) (depth - 1) blockStart (quoteStep st ch) rest
    else
      findBlocksGo (i + 1) depth blockStart (quoteStep st ch) rest

/-- `findBalancedBlocks` from `parser.ts`. -/
def findBalancedBlocks (text : List Char) : List BalancedBlock :=
  findBlocksGo 0 0 none (false, none) text

/-- `toSingleLine` from `transformer.ts`:
`text.trim().replace(/[\r\n\t]/g, '')`. -/
def toSingleLine (text : List Char) : List Char :=
  (trim text).filter keepChar

/-- Replace the element at an index, leaving the list unchanged when the
index is out of range (JavaScript array-element assignment in bounds). -/
def modifyIdx (f : List Char → List Char) : Nat → List (List Char) → List (List Char)
  | _, [] => []
  | 0, cell :: cells => f cell :: cells
  | n + 1, cell :: cells => cell :: modifyIdx f n cells

/-- The body of the `separators.forEach` in `toMultiLine`: either prepend
or append a line break to the array cell at the separator index. -/
def insertBreak (options : TransformOptions) (sep : SeparatorLocation)
    (cell : List Char) : List Char :=
  if options.isCommaOnNewLine && sep.isComma then '\n' :: cell else cell ++ ['\n']

/-- The `chars` array of `toMultiLine` after the `forEach` over the
separator list: one cell per input character, with line breaks inserted. -/
def expandCells (text : List Char) (options : TransformOptions) : List (List Char) :=
  (findSeparatorIndexes text).foldl
    (fun cells sep => modifyIdx (insertBreak options sep) sep.index cells)
    (text.map (fun c => [c]))

/-- `toMultiLine` from `transformer.ts` (`chars.join('')`). -/
def toMultiLine (text : List Char) (options : TransformOptions) : List Char :=
  (expandCells text options).flatten

/-- `toggleLineLayout` from `transformer.ts`. -/
def toggleLineLayout (text : List Char) (options : TransformOptions) : List Char :=
  let trimmed := trim text
  if trimmed.length == 0 then text
  else if detectLayout trimmed == TextLayout.MultiLine then toSingleLine trimmed
  else toMultiLine trimmed options

/-- `.replace(/[\r\n\t]+/g, ' ')` — each maximal run of CR/LF/TAB becomes a
single space.  `inRun` records whether the previous character belonged to a
run already replaced. -/
def collapseRNTGo (inRun : Bool) : List Char → List Char
  | [] => []
  | c :: rest =>
    if isRNT c then
      if inRun then collapseRNTGo true rest else ' ' :: collapseRNTGo true rest
    else c :: collapseRNTGo false rest

/-- First compaction pass of `compactBlocks`. -/
def collapseRNT (l : List Char) : List Char := collapseRNTGo false l

/-- `.replace(/\s{2,}/g, ' ')` — each whitespace run of length at least two
becomes one space; a lone whitespace character is left as it is.  `inRun`
means the current run has already been replaced and its remaining
characters are dropped. -/
def squashWsGo (inRun : Bool) : List Char → List Char
  | [] => []
  | c :: rest =>
    if inRun then
      if isJSWhitespace c then squashWsGo true rest else c :: squashWsGo false rest
    else if isJSWhitespace c then
      match rest.head? with
      | some d =>
        if isJSWhitespace d then ' ' :: squashWsGo true rest
        else c :: squashWsGo false rest
      | none => [c]
    else c :: squashWsGo false rest

/-- Second compaction pass of `compactBlocks`. -/
def squashWs (l : List Char) : List Char := squashWsGo false l

/-- `.replace(/\{\s+/g, '{ ')` — an opening brace followed by a whitespace
run becomes the brace and one space.  `skipping` means the run after a
matched brace is being consumed. -/
def braceOpenGo (skipping : Bool) : List Char → List Char
  | [] => []
  | c :: rest =>
    if skipping && isJSWhitespace c then braceOpenGo true rest
    else if c == '{' then
      match rest.head? with
      | some d =>
        if isJSWhitespace d then '{' :: ' ' :: braceOpenGo true rest
        else '{' :: braceOpenGo false rest
      | none => ['{']
    else c :: braceOpenGo false rest

/-- Third compaction pass of `compactBlocks`. -/
def braceOpenSpace (l : List Char) : List Char := braceOpenGo false l

/-- `.replace(/\s+\}/g, ' }')` — a whitespace run directly before a closing
brace becomes one space and the brace.  `pending` buffers the current
whitespace run until its end is seen. -/
def spaceBraceGo (pending : List Char) : List Char → List Char
  | [] => pending
  | c :: rest =>
    if isJSWhitespace c then spaceBraceGo (pending ++ [c]) rest
    else if c == '}' then
      (if pending.isEmpty then [] else [' ']) ++ '}' :: spaceBraceGo [] rest
    else pending ++ c :: spaceBraceGo [] rest

/-- Fourth compaction pass of `compactBlocks`. -/
def spaceBraceClose (l : List Char) : List Char := spaceBraceGo [] l

/-- `text.substring(block.start, block.end + 1)` — the raw text of a block,
both braces included. -/
def rawOf (text : List Char) (b : BalancedBlock) : List Char :=
  (text.drop b.start).take (b.endIdx + 1 - b.start)

/-- The `compacted` value of the `compactBlocks` loop: the four regex
replacements applied to the block's raw text. -/
def compactedOf (text : List Char) (b : BalancedBlock) : List Char :=
  spaceBraceClose (braceOpenSpace (squashWs (collapseRNT (rawOf text b))))

/-- `beforeFirst.match(/([ \t]*)$/)` — the longest trailing run of spaces
and tabs in the text before the first block. -/
def indentFor (text : List Char) (b0 : BalancedBlock) : List Char :=
  ((text.take b0.start).reverse.takeWhile (fun c => c == ' ' || c == '\t')).reverse

/-- One line of the `compactBlocks` loop body, given this block and the
start of the next block (or `text.length` for the last block). -/
def lineFor (text indent : List Char) (b : BalancedBlock) (nextStart : Nat) : List Char :=
  let trailing := trim ((text.drop (b.endIdx + 1)).take (nextStart - (b.endIdx + 1)))
  if trailing == [','] then indent ++ compactedOf text b ++ [',']
  else if trailing.head? == some ',' then indent ++ compactedOf text b ++ [',']
  else indent ++ compactedOf text b ++ (if trailing.isEmpty then [] else ' ' :: trailing)

/-- The `lines` array built by the `compactBlocks` loop. -/
def compactLines (text indent : List Char) : List BalancedBlock → List (List Char)
  | [] => []
  | b :: rest =>
    let nextStart := match rest.head? with
      | some b2 => b2.start
      | none => text.length
    lineFor text indent b nextStart :: compactLines text indent rest

/-- The `lines` array of `compactBlocks` for a given buffer (empty when no
block is found). -/
def compactResultLines (text : List Char) : List (List Char) :=
  match findBalancedBlocks text with
  | [] => []
  | b0 :: rest => compactLines text (indentFor text b0) (b0 :: rest)

/-- The indentation prefix used by `compactBlocks` for a given buffer
(empty when no block is found). -/
def indentOf (text : List Char) : List Char :=
  match findBalancedBlocks text with
  | [] => []
  | b0 :: _ => indentFor text b0

/-- `compactBlocks` from `transformer.ts`. -/
def compactBlocks (text : List Char) : List Char :=
  match findBalancedBlocks text with
  | [] => toSingleLine text
  | b0 :: rest =>
    List.intercalate ['\n'] (compactLines text (indentFor text b0) (b0 :: rest))

/-- The text between block `i` and block `i + 1` (or the end of the
buffer), before trimming — the `text.substring(block.end + 1, nextStart)`
of the loop. -/
def gapAfter (text : List Char) (i : Nat) : List Char :=
  let blocks := findBalancedBlocks text
  match blocks[i]? with
  | none => []
  | some b =>
    let nextStart := match blocks[i + 1]? with
      | some b2 => b2.start
      | none => text.length
    (text.drop (b.endIdx + 1)).take (nextStart - (b.endIdx + 1))

/-- Splitting a buffer into its lines at `\n`. -/
def lineSplit (l : List Char) : List (List Char) := l.splitOn '\n'

/-! ## Concrete buffers used in the example theorems and witnesses -/

/-- The buffer `,`. -/
def exComma : List Char := [',']

/-- The buffer `"]"` — a quoted string whose first character is `]`. -/
def exQuoteBracket : List Char := ['"', ']', '"']

/-- The buffer `"no { block }" { "real": true }` from the specification. -/
def exNoBlock : List Char :=
  ['"', 'n', 'o', ' ', '{', ' ', 'b', 'l', 'o', 'c', 'k', ' ', '}', '"', ' ',
   '{', ' ', '"', 'r', 'e', 'a', 'l', '"', ':', ' ', 't', 'r', 'u', 'e', ' ', '}']

/-- The buffer `"a"]` — a closing bracket right after a closing quote. -/
def exQuoteThenBracket : List Char := ['"', 'a', '"', ']']

/-- The buffer `a]`. -/
def exAB : List Char := ['a', ']']

/-- The buffer `just\nsome\ntext` (real line breaks). -/
def exJust : List Char :=
  ['j', 'u', 's', 't', '\n', 's', 'o', 'm', 'e', '\n', 't', 'e', 'x', 't']

/-- The buffer `justsometext`. -/
def exJustFlat : List Char :=
  ['j', 'u', 's', 't', 's', 'o', 'm', 'e', 't', 'e', 'x', 't']

/-- The buffer `{ "a": { "b": 1 } }` from the specification. -/
def exNested : List Char :=
  ['{', ' ', '"', 'a', '"', ':', ' ', '{', ' ', '"', 'b', '"', ':', ' ', '1',
   ' ', '}', ' ', '}']

/-- The buffer `} { "a": 1 }` — an unmatched leading closing brace. -/
def exLeadBrace : List Char :=
  ['}', ' ', '{', ' ', '"', 'a', '"', ':', ' ', '1', ' ', '}']

/-- The buffer `{a}, x{b}`. -/
def exTwoGap : List Char := ['{', 'a', '}', ',', ' ', 'x', '{', 'b', '}']

/-- The buffer `{a},{b}`. -/
def exTwo : List Char := ['{', 'a', '}', ',', '{', 'b', '}']

/-- The buffer `a,b`. -/
def exList : List Char := ['a', ',', 'b']

/-- The buffer `   ` (three spaces). -/
def exSpaces : List Char := [' ', ' ', ' ']

/-! ## Generic `dropWhile` and trimming lemmas -/

theorem mem_of_mem_dropWhile {α : Type} {p : α → Bool} {l : List α} {a : α}
    (h : a ∈ l.dropWhile p) : a ∈ l := by
  obtain ⟨t, ht⟩ := List.dropWhile_suffix (l := l) p
  rw [← ht]
  exact List.mem_append.mpr (Or.inr h)

theorem head?_dropWhile_not {α : Type} (p : α → Bool) :
    ∀ (l : List α) (a : α), (l.dropWhile p).head? = some a → p a = false
  | [], a, h => by simp [List.dropWhile] at h
  | c :: cs, a, h => by
    rw [List.dropWhile_cons] at h
    by_cases hc : p c = true
    · rw [if_pos hc] at h
      exact head?_dropWhile_not p cs a h
    · rw [if_neg hc] at h
      simp only [List.head?_cons, Option.some.injEq] at h
      subst h
      exact Bool.eq_false_iff.mpr hc

theorem dropWhile_eq_self_of_head {α : Type} {p : α → Bool} {l : List α}
    (h : ∀ a, l.head? = some a → p a = false) : l.dropWhile p = l := by
  cases l with
  | nil => rfl
  | cons c cs =>
    rw [List.dropWhile_cons, if_neg]
    simp [h c rfl]

theorem dropWhile_idem {α : Type} (p : α → Bool) (l : List α) :
    (l.dropWhile p).dropWhile p = l.dropWhile p := by
  apply dropWhile_eq_self_of_head
  intro a ha
  exact head?_dropWhile_not p l a ha

theorem rtrim_append_eq (l : List Char) : ∃ t, rtrim l ++ t = l := by
  obtain ⟨t, ht⟩ := List.dropWhile_suffix (l := l.reverse) isJSWhitespace
  refine ⟨t.reverse, ?_⟩
  have := congrArg List.reverse ht
  rwa [List.reverse_append, List.reverse_reverse] at this

theorem rtrim_getLast?_not {l : List Char} {a : Char}
    (h : (rtrim l).getLast? = some a) : isJSWhitespace a = false := by
  rw [rtrim, List.getLast?_reverse] at h
  exact head?_dropWhile_not _ _ _ h

theorem rtrim_eq_self {l : List Char}
    (h : ∀ a, l.getLast? = some a → isJSWhitespace a = false) : rtrim l = l := by
  rw [rtrim, dropWhile_eq_self_of_head, List.reverse_reverse]
  intro a ha
  rw [List.head?_reverse] at ha
  exact h a ha

theorem ltrim_append_eq (l : List Char) : ∃ t, t ++ ltrim l = l :=
  List.dropWhile_suffix (l := l) isJSWhitespace

theorem trim_head?_not {l : List Char} {a : Char}
    (h : (trim l).head? = some a) : isJSWhitespace a = false :=
  head?_dropWhile_not _ _ _ h

theorem mem_trim {l : List Char} {a : Char} (h : a ∈ trim l) : a ∈ l := by
  have h1 : a ∈ rtrim l := mem_of_mem_dropWhile h
  rw [rtrim, List.mem_reverse] at h1
  have h2 := mem_of_mem_dropWhile h1
  rwa [List.mem_reverse] at h2

theorem trim_idem (l : List Char) : trim (trim l) = trim l := by
  have htr : trim l = ltrim (rtrim l) := rfl
  rcases hlm : trim l with _ | ⟨a, t⟩
  · rfl
  · rw [← hlm]
    have hself : rtrim (trim l) = trim l := by
      apply rtrim_eq_self
      intro x hx
      obtain ⟨sPre, hs⟩ := ltrim_append_eq (rtrim l)
      have hlast : (rtrim l).getLast? = some x := by
        rw [← hs, List.getLast?_append, ← htr, hlm]
        rw [hlm] at hx
        rw [hx]
        rfl
      exact rtrim_getLast?_not hlast
    show ltrim (rtrim (trim l)) = trim l
    rw [hself, htr]
    exact dropWhile_idem _ _

theorem keepChar_false_ws {c : Char} (h : keepChar c = false) :
    isJSWhitespace c = true := by
  simp only [keepChar, isRNT, Bool.not_eq_false', Bool.or_eq_true, beq_iff_eq] at h
  rcases h with (h | h) | h <;> subst h <;> decide

theorem dropWhile_filter_comm (l : List Char) :
    (l.filter keepChar).dropWhile isJSWhitespace =
      (l.dropWhile isJSWhitespace).filter keepChar := by
  induction l with
  | nil => rfl
  | cons c cs ih =>
    by_cases hk : keepChar c = true
    · by_cases hw : isJSWhitespace c = true
      · rw [List.filter_cons, if_pos hk, List.dropWhile_cons, if_pos hw,
          List.dropWhile_cons, if_pos hw, ih]
      · rw [List.filter_cons, if_pos hk, List.dropWhile_cons, if_neg hw,
          List.dropWhile_cons, if_neg hw, List.filter_cons, if_pos hk]
    · have hw : isJSWhitespace c = true :=
        keepChar_false_ws (Bool.eq_false_iff.mpr hk)
      rw [List.filter_cons, if_neg hk, List.dropWhile_cons, if_pos hw, ih]

theorem filter_rtrim (l : List Char) :
    rtrim (l.filter keepChar) = (rtrim l).filter keepChar := by
  rw [rtrim, rtrim, ← List.filter_reverse, dropWhile_filter_comm, List.filter_reverse]

theorem filter_trim (l : List Char) :
    trim (l.filter keepChar) = (trim l).filter keepChar := by
  rw [trim, trim, filter_rtrim, ltrim, ltrim, dropWhile_filter_comm]

theorem filter_keepChar_idem (l : List Char) :
    (l.filter keepChar).filter keepChar = l.filter keepChar := by
  rw [List.filter_filter]
  apply List.filter_congr
  intro a _
  rw [Bool.and_self]

/-! ## Claims C6, C7, C9, C10 -/

/-- C7: Idempotence of collapse — for every buffer `x`,
`toSingleLine (toSingleLine x) = toSingleLine x`: trimming then stripping
carriage-returns, line-feeds and tabs yields a fixed point. -/
theorem claim_C7_collapse_idempotent (x : List Char) :
    toSingleLine (toSingleLine x) = toSingleLine x := by
  rw [toSingleLine, toSingleLine, filter_trim, filter_keepChar_idem, trim_idem]

/-- C6: Zero-blocks fallback — whenever `findBalancedBlocks x` is empty,
`compactBlocks x` equals `toSingleLine x`. -/
theorem claim_C6_zero_blocks_fallback (x : List Char)
    (h : findBalancedBlocks x = []) : compactBlocks x = toSingleLine x := by
  rw [compactBlocks, h]

/-- Witness for C6 at the buffer `just\nsome\ntext`: no blocks are found,
the theorem applies, and the fallback result is `justsometext`. -/
theorem claim_C6_zero_blocks_fallback_witness :
    findBalancedBlocks exJust = [] ∧
    compactBlocks exJust = toSingleLine exJust ∧
    compactBlocks exJust = exJustFlat :=
  ⟨by decide, claim_C6_zero_blocks_fallback exJust (by decide), by decide⟩

/-- C9: Toggle blank-input identity — when the trim of the buffer is empty,
`toggleLineLayout` returns the original untrimmed buffer unchanged. -/
theorem claim_C9_toggle_blank_identity (x : List Char) (o : TransformOptions)
    (h : trim x = []) : toggleLineLayout x o = x := by
  rw [toggleLineLayout, h]
  rfl

/-- Witness for C9: `toggle("") = ""` and `toggle("   ") = "   "`. -/
theorem claim_C9_toggle_blank_identity_witness :
    trim ([] : List Char) = [] ∧ toggleLineLayout [] ⟨false⟩ = [] ∧
    trim exSpaces = [] ∧ toggleLineLayout exSpaces ⟨false⟩ = exSpaces :=
  ⟨by decide, claim_C9_toggle_blank_identity [] ⟨false⟩ (by decide),
   by decide, claim_C9_toggle_blank_identity exSpaces ⟨false⟩ (by decide)⟩

/-- C10: Unmatched leading closing brace suppresses block detection — a `}`
scanned outside strings at depth 0 just decrements the counter to `-1`; a
later `{` at negative depth raises the counter without being recorded as a
block start; consequently `findBalancedBlocks` on `} { "a": 1 }` is empty
and `compactBlocks` falls back to collapsing the whole buffer. -/
theorem claim_C10_negative_depth :
    (∀ (i : Nat) (bs : Option Nat) (st : Bool × Option Char) (l : List Char),
      st.1 = false →
      findBlocksGo i 0 bs st ('}' :: l) = findBlocksGo (i + 1) (-1) bs st l) ∧
    (∀ (i : Nat) (d : Int) (bs : Option Nat) (st : Bool × Option Char)
      (l : List Char), d < 0 → st.1 = false →
      findBlocksGo i d bs st ('{' :: l) = findBlocksGo (i + 1) (d + 1) bs st l) ∧
    findBalancedBlocks exLeadBrace = [] ∧
    compactBlocks exLeadBrace = toSingleLine exLeadBrace := by
  refine ⟨?_, ?_, by decide, by decide⟩
  · intro i bs st l h
    have hq : quoteStep st '}' = st := by rw [quoteStep, if_neg (by decide)]
    have hnq : isQuote '}' = false := by decide
    cases bs with
    | none => simp [findBlocksGo, h, hq, hnq]
    | some sVal => simp [findBlocksGo, h, hq, hnq]
  · intro i d bs st l hd h
    have hq : quoteStep st '{' = st := by rw [quoteStep, if_neg (by decide)]
    have h0 : (d == 0) = false := by
      rw [beq_eq_false_iff_ne]
      omega
    have hnq : isQuote '{' = false := by decide
    simp [findBlocksGo, h, hq, h0, hnq]

/-- Witness for C10: the two step equations applied at concrete states. -/
theorem claim_C10_negative_depth_witness :
    findBlocksGo 0 0 none (false, none) ['}'] =
      findBlocksGo 1 (-1) none (false, none) [] ∧
    findBlocksGo 5 (-1) none (false, none) ['{'] =
      findBlocksGo 6 ((-1) + 1) none (false, none) [] :=
  ⟨claim_C10_negative_depth.1 0 none (false, none) [] rfl,
   claim_C10_negative_depth.2.1 5 (-1) none (false, none) [] (by decide) rfl⟩

/-! ## Separator-scanner lemmas -/

theorem findSepGo_sound :
    ∀ (l : List Char) (i : Nat) (st : Bool × Option Char) (sp : SeparatorLocation),
      sp ∈ findSepGo i st l →
      i ≤ sp.index ∧
      ∃ c, l[sp.index - i]? = some c ∧
        sp.isComma = (c == ',') ∧
        sepPred c (l[sp.index - i + 1]?) = true ∧
        ((l.take (sp.index - i)).foldl quoteStep st).1 = false
  | [], _, _, _, h => by simp [findSepGo] at h
  | ch :: rest, i, st, sp, h => by
    rw [findSepGo] at h
    rcases List.mem_append.mp h with h1 | h1
    · by_cases hc : (!st.1 && sepPred ch rest.head?) = true
      · rw [if_pos hc] at h1
        rcases List.mem_singleton.mp h1 with rfl
        simp only [Bool.and_eq_true, Bool.not_eq_true'] at hc
        obtain ⟨hs, hp⟩ := hc
        refine ⟨Nat.le_refl i, ch, ?_, rfl, ?_, ?_⟩
        · simp
        · simpa [List.head?_eq_getElem?] using hp
        · simpa using hs
      · rw [if_neg hc] at h1
        simp at h1
    · obtain ⟨hle, c, hget, hcomma, hpred, hst⟩ :=
        findSepGo_sound rest (i + 1) (quoteStep st ch) sp h1
      have hk : sp.index - i = (sp.index - (i + 1)) + 1 := by omega
      refine ⟨by omega, c, ?_, hcomma, ?_, ?_⟩
      · rw [hk, List.getElem?_cons_succ]
        exact hget
      · rw [hk, List.getElem?_cons_succ]
        exact hpred
      · rw [hk, List.take_succ_cons, List.foldl_cons]
        exact hst

theorem findSepGo_pairwise :
    ∀ (l : List Char) (i : Nat) (st : Bool × Option Char),
      List.Pairwise (fun a b => a.index < b.index) (findSepGo i st l)
  | [], _, _ => List.Pairwise.nil
  | ch :: rest, i, st => by
    rw [findSepGo]
    refine List.pairwise_append.mpr ⟨?_, findSepGo_pairwise rest (i + 1) (quoteStep st ch), ?_⟩
    · by_cases hc : (!st.1 && sepPred ch rest.head?) = true
      · rw [if_pos hc]
        simp
      · rw [if_neg hc]
        simp
    · intro a ha b hb
      have hbge := (findSepGo_sound rest (i + 1) (quoteStep st ch) b hb).1
      by_cases hc : (!st.1 && sepPred ch rest.head?) = true
      · rw [if_pos hc] at ha
        rcases List.mem_singleton.mp ha with rfl
        simpa using by omega
      · rw [if_neg hc] at ha
        simp at ha

theorem findSepGo_complete :
    ∀ (l : List Char) (i j : Nat) (st : Bool × Option Char) (c : Char),
      l[j]? = some c → ((l.take j).foldl quoteStep st).1 = false →
      sepPred c (l[j + 1]?) = true →
      (⟨i + j, c == ','⟩ : SeparatorLocation) ∈ findSepGo i st l
  | [], _, j, _, _, hget, _, _ => by simp at hget
  | ch :: rest, i, 0, st, c, hget, hst, hpred => by
    rw [List.getElem?_cons_zero, Option.some.injEq] at hget
    subst hget
    rw [findSepGo]
    apply List.mem_append.mpr
    left
    have hs : st.1 = false := by simpa using hst
    have hcond : (!st.1 && sepPred ch rest.head?) = true := by
      simp only [hs, Bool.not_false, Bool.true_and]
      simpa [List.head?_eq_getElem?] using hpred
    rw [if_pos hcond]
    simp
  | ch :: rest, i, j + 1, st, c, hget, hst, hpred => by
    rw [List.getElem?_cons_succ] at hget
    rw [List.take_succ_cons, List.foldl_cons] at hst
    rw [List.getElem?_cons_succ] at hpred
    have := findSepGo_complete rest (i + 1) j (quoteStep st ch) c hget hst hpred
    rw [findSepGo]
    apply List.mem_append.mpr
    right
    have harith : i + 1 + j = i + (j + 1) := by omega
    rwa [harith] at this

theorem findSeparatorIndexes_sound {text : List Char} {sp : SeparatorLocation}
    (h : sp ∈ findSeparatorIndexes text) :
    inStringAt text sp.index = false ∧
    ∃ c, text[sp.index]? = some c ∧ sp.isComma = (c == ',') ∧
      sepPred c (text[sp.index + 1]?) = true := by
  obtain ⟨_, c, hget, hcomma, hpred, hst⟩ :=
    findSepGo_sound text 0 (false, none) sp h
  rw [Nat.sub_zero] at hget hpred hst
  exact ⟨hst, c, hget, hcomma, hpred⟩

theorem findSeparatorIndexes_pairwise (text : List Char) :
    List.Pairwise (fun a b => a.index < b.index) (findSeparatorIndexes text) :=
  findSepGo_pairwise text 0 (false, none)

theorem findSeparatorIndexes_complete {text : List Char} {j : Nat} {c : Char}
    (hget : text[j]? = some c) (hst : inStringAt text j = false)
    (hpred : sepPred c (text[j + 1]?) = true) :
    (⟨j, c == ','⟩ : SeparatorLocation) ∈ findSeparatorIndexes text := by
  have := findSepGo_complete text 0 j (false, none) c hget hst hpred
  simpa using this

/-! ## Quote-state and block-scanner lemmas -/

theorem quoteStateAt_succ {text : List Char} {i : Nat} {c : Char}
    (h : text[i]? = some c) :
    quoteStateAt text (i + 1) = quoteStep (quoteStateAt text i) c := by
  rw [quoteStateAt, quoteStateAt, List.take_succ, h]
  simp [List.foldl_append]

theorem drop_cons_facts {text : List Char} {i : Nat} {ch : Char} {rest : List Char}
    (h : text.drop i = ch :: rest) : text[i]? = some ch ∧ text.drop (i + 1) = rest := by
  constructor
  · have hg := List.getElem?_drop text i 0
    rw [h] at hg
    simpa using hg.symm
  · rw [← List.tail_drop, h]
    rfl

theorem findBlocksGo_sound :
    ∀ (l : List Char) (text : List Char) (i : Nat) (depth : Int) (bs : Option Nat),
      l = text.drop i →
      (∀ s, bs = some s → s < i ∧ text[s]? = some '{' ∧ inStringAt text s = false) →
      ∀ b ∈ findBlocksGo i depth bs (quoteStateAt text i) l,
        (i ≤ b.endIdx ∧ b.endIdx < text.length ∧ b.start < b.endIdx ∧
          text[b.start]? = some '{' ∧ text[b.endIdx]? = some '}' ∧
          inStringAt text b.start = false ∧ inStringAt text b.endIdx = false) ∧
        (∀ s, bs = some s → s ≤ b.start) ∧ (bs = none → i ≤ b.start)
  | [], _, _, _, _, _, _, b, hb => by simp [findBlocksGo] at hb
  | ch :: rest, text, i, depth, bs, hl, hbs, b, hb => by
    obtain ⟨hgi, hdrop⟩ := drop_cons_facts hl.symm
    have hstep : quoteStateAt text (i + 1) = quoteStep (quoteStateAt text i) ch :=
      quoteStateAt_succ hgi
    rw [findBlocksGo.eq_def] at hb
    simp only [] at hb
    by_cases h1 : ((quoteStateAt text i).1 || isQuote ch) = true
    · rw [if_pos h1, ← hstep] at hb
      have hbs' : ∀ s, bs = some s →
          s < i + 1 ∧ text[s]? = some '{' ∧ inStringAt text s = false := by
        intro s hs
        obtain ⟨ha, hb', hc'⟩ := hbs s hs
        exact ⟨by omega, hb', hc'⟩
      obtain ⟨hmain, hsome, hnone⟩ :=
        findBlocksGo_sound rest text (i + 1) depth bs hdrop.symm hbs' b hb
      exact ⟨⟨by omega, hmain.2.1, hmain.2.2.1, hmain.2.2.2.1, hmain.2.2.2.2.1,
        hmain.2.2.2.2.2.1, hmain.2.2.2.2.2.2⟩, hsome,
        fun hn => by have := hnone hn; omega⟩
    · rw [if_neg h1] at hb
      simp only [Bool.or_eq_true, not_or, Bool.not_eq_true] at h1
      obtain ⟨hstF, hqF⟩ := h1
      by_cases h2 : (ch == '{') = true
      · rw [if_pos h2, ← hstep] at hb
        have hch : ch = '{' := eq_of_beq h2
        have hbs' : ∀ s, (if depth == 0 then some i else bs) = some s →
            s < i + 1 ∧ text[s]? = some '{' ∧ inStringAt text s = false := by
          intro s hs
          by_cases hd : (depth == 0) = true
          · rw [if_pos hd, Option.some.injEq] at hs
            subst hs
            refine ⟨by omega, by rw [hgi, hch], hstF⟩
          · rw [if_neg hd] at hs
            obtain ⟨ha, hb', hc'⟩ := hbs s hs
            exact ⟨by omega, hb', hc'⟩
        obtain ⟨hmain, hsome, hnone⟩ :=
          findBlocksGo_sound rest text (i + 1) (depth + 1)
            (if depth == 0 then some i else bs) hdrop.symm hbs' b hb
        refine ⟨⟨by omega, hmain.2.1, hmain.2.2.1, hmain.2.2.2.1, hmain.2.2.2.2.1,
          hmain.2.2.2.2.2.1, hmain.2.2.2.2.2.2⟩, ?_, ?_⟩
        · intro s hs
          obtain ⟨ha, _, _⟩ := hbs s hs
          by_cases hd : (depth == 0) = true
          · have := hsome i (by rw [if_pos hd])
            omega
          · exact hsome s (by rw [if_neg hd]; exact hs)
        · intro hn
          by_cases hd : (depth == 0) = true
          · exact hsome i (by rw [if_pos hd])
          · have := hnone (by rw [if_neg hd]; exact hn)
            omega
      · rw [if_neg h2] at hb
        by_cases h3 : (ch == '}') = true
        · rw [if_pos h3] at hb
          have hch : ch = '}' := eq_of_beq h3
          cases bs with
          | none =>
            simp only [] at hb
            rw [← hstep] at hb
            obtain ⟨hmain, _, hnone⟩ :=
              findBlocksGo_sound rest text (i + 1) (depth - 1) none hdrop.symm
                (fun s hs => Option.noConfusion hs) b hb
            refine ⟨⟨by omega, hmain.2.1, hmain.2.2.1, hmain.2.2.2.1,
              hmain.2.2.2.2.1, hmain.2.2.2.2.2.1, hmain.2.2.2.2.2.2⟩,
              fun s hs => Option.noConfusion hs, fun hn => by have := hnone rfl; omega⟩
          | some sVal =>
            simp only [] at hb
            obtain ⟨hsi, hsget, hsstr⟩ := hbs sVal rfl
            by_cases h4 : (depth - 1 == 0) = true
            · rw [if_pos h4, ← hstep] at hb
              rcases List.mem_cons.mp hb with rfl | hb'
              · have hilen : i < text.length := by
                  obtain ⟨hlt, _⟩ := List.getElem?_eq_some_iff.mp hgi
                  exact hlt
                refine ⟨⟨Nat.le_refl i, hilen, hsi, hsget, by rw [hgi, hch],
                  hsstr, hstF⟩, ?_, ?_⟩
                · intro s hs
                  rw [Option.some.injEq] at hs
                  subst hs
                  exact Nat.le_refl _
                · intro hn
                  exact Option.noConfusion hn
              · obtain ⟨hmain, _, hnone⟩ :=
                  findBlocksGo_sound rest text (i + 1) (depth - 1) none hdrop.symm
                    (fun s hs => Option.noConfusion hs) b hb'
                refine ⟨⟨by omega, hmain.2.1, hmain.2.2.1, hmain.2.2.2.1,
                  hmain.2.2.2.2.1, hmain.2.2.2.2.2.1, hmain.2.2.2.2.2.2⟩, ?_, ?_⟩
                · intro s hs
                  rw [Option.some.injEq] at hs
                  subst hs
                  have := hnone rfl
                  omega
                · intro hn
                  exact Option.noConfusion hn
            · rw [if_neg h4, ← hstep] at hb
              have hbs' : ∀ s, some sVal = some s →
                  s < i + 1 ∧ text[s]? = some '{' ∧ inStringAt text s = false := by
                intro s hs
                rw [Option.some.injEq] at hs
                subst hs
                exact ⟨by omega, hsget, hsstr⟩
              obtain ⟨hmain, hsome, _⟩ :=
                findBlocksGo_sound rest text (i + 1) (depth - 1) (some sVal)
                  hdrop.symm hbs' b hb
              refine ⟨⟨by omega, hmain.2.1, hmain.2.2.1, hmain.2.2.2.1,
                hmain.2.2.2.2.1, hmain.2.2.2.2.2.1, hmain.2.2.2.2.2.2⟩, ?_,
                fun hn => Option.noConfusion hn⟩
              intro s hs
              exact hsome s hs
        · rw [if_neg h3, ← hstep] at hb
          have hbs' : ∀ s, bs = some s →
              s < i + 1 ∧ text[s]? = some '{' ∧ inStringAt text s = false := by
            intro s hs
            obtain ⟨ha, hb', hc'⟩ := hbs s hs
            exact ⟨by omega, hb', hc'⟩
          obtain ⟨hmain, hsome, hnone⟩ :=
            findBlocksGo_sound rest text (i + 1) depth bs hdrop.symm hbs' b hb
          exact ⟨⟨by omega, hmain.2.1, hmain.2.2.1, hmain.2.2.2.1,
            hmain.2.2.2.2.1, hmain.2.2.2.2.2.1, hmain.2.2.2.2.2.2⟩, hsome,
            fun hn => by have := hnone hn; omega⟩

theorem findBlocksGo_pairwise :
    ∀ (l text : List Char) (i : Nat) (depth : Int) (bs : Option Nat),
      l = text.drop i →
      List.Pairwise (fun b1 b2 => b1.endIdx < b2.start)
        (findBlocksGo i depth bs (quoteStateAt text i) l)
  | [], _, _, _, _, _ => by simp [findBlocksGo]
  | ch :: rest, text, i, depth, bs, hl => by
    obtain ⟨hgi, hdrop⟩ := drop_cons_facts hl.symm
    have hstep := quoteStateAt_succ hgi
    rw [findBlocksGo.eq_def]
    simp only []
    by_cases h1 : ((quoteStateAt text i).1 || isQuote ch) = true
    · rw [if_pos h1, ← hstep]
      exact findBlocksGo_pairwise rest text (i + 1) depth bs hdrop.symm
    · rw [if_neg h1]
      by_cases h2 : (ch == '{') = true
      · rw [if_pos h2, ← hstep]
        exact findBlocksGo_pairwise rest text (i + 1) (depth + 1) _ hdrop.symm
      · rw [if_neg h2]
        by_cases h3 : (ch == '}') = true
        · rw [if_pos h3]
          cases bs with
          | none =>
            simp only []
            rw [← hstep]
            exact findBlocksGo_pairwise rest text (i + 1) (depth - 1) none hdrop.symm
          | some sVal =>
            simp only []
            by_cases h4 : (depth - 1 == 0) = true
            · rw [if_pos h4, ← hstep]
              refine List.pairwise_cons.mpr
                ⟨?_, findBlocksGo_pairwise rest text (i + 1) (depth - 1) none hdrop.symm⟩
              intro b' hb'
              obtain ⟨_, _, hnone⟩ :=
                findBlocksGo_sound rest text (i + 1) (depth - 1) none hdrop.symm
                  (fun s hs => Option.noConfusion hs) b' hb'
              have := hnone rfl
              show i < b'.start
              omega
            · rw [if_neg h4, ← hstep]
              exact findBlocksGo_pairwise rest text (i + 1) (depth - 1) (some sVal) hdrop.symm
        · rw [if_neg h3, ← hstep]
          exact findBlocksGo_pairwise rest text (i + 1) depth bs hdrop.symm

theorem findBalancedBlocks_sound {text : List Char} {b : BalancedBlock}
    (hb : b ∈ findBalancedBlocks text) :
    b.endIdx < text.length ∧ b.start < b.endIdx ∧
    text[b.start]? = some '{' ∧ text[b.endIdx]? = some '}' ∧
    inStringAt text b.start = false ∧ inStringAt text b.endIdx = false := by
  have h0 : quoteStateAt text 0 = (false, none) := rfl
  obtain ⟨hmain, _, _⟩ :=
    findBlocksGo_sound text text 0 0 none (List.drop_zero text).symm
      (fun s hs => Option.noConfusion hs) b (by rw [h0]; exact hb)
  exact ⟨hmain.2.1, hmain.2.2.1, hmain.2.2.2.1, hmain.2.2.2.2.1,
    hmain.2.2.2.2.2.1, hmain.2.2.2.2.2.2⟩

theorem findBalancedBlocks_pairwise (text : List Char) :
    List.Pairwise (fun b1 b2 => b1.endIdx < b2.start) (findBalancedBlocks text) := by
  have h0 : quoteStateAt text 0 = (false, none) := rfl
  have := findBlocksGo_pairwise text text 0 0 none (List.drop_zero text).symm
  rwa [h0] at this

/-! ## Claims C8 and C2 -/

/-- C8: Balanced-block span invariant — the spans returned by
`findBalancedBlocks` are non-overlapping (`spans[i].end < spans[i+1].start`
for adjacent pairs, stated as pairwise), reported in ascending start order,
each span has `start < end`, and nested braces are absorbed (the nested
example yields a single outermost span). -/
theorem claim_C8_block_span_invariant (text : List Char) :
    List.Pairwise (fun b1 b2 => b1.endIdx < b2.start) (findBalancedBlocks text) ∧
    List.Pairwise (fun b1 b2 => b1.start < b2.start) (findBalancedBlocks text) ∧
    (∀ b ∈ findBalancedBlocks text, b.start < b.endIdx) ∧
    findBalancedBlocks exNested = [⟨0, 18⟩] := by
  refine ⟨findBalancedBlocks_pairwise text, ?_, ?_, by decide⟩
  · refine List.Pairwise.imp_of_mem ?_ (findBalancedBlocks_pairwise text)
    intro b1 b2 h1 h2 hlt
    have := (findBalancedBlocks_sound h1).2.1
    omega
  · intro b hb
    exact (findBalancedBlocks_sound hb).2.1

/-- Witness for C8 at `{a},{b}`: pairwise disjointness holds and the first
span has `start < end`. -/
theorem claim_C8_block_span_invariant_witness :
    List.Pairwise (fun b1 b2 => b1.endIdx < b2.start) (findBalancedBlocks exTwo) ∧
    (⟨0, 2⟩ : BalancedBlock).start < (⟨0, 2⟩ : BalancedBlock).endIdx :=
  ⟨(claim_C8_block_span_invariant exTwo).1,
   (claim_C8_block_span_invariant exTwo).2.2.1 ⟨0, 2⟩ (by decide)⟩

/-- C2 counterexample: on the buffer `"]"` the quote character that opens
the string is itself recorded as a separator (because the next character is
a closing bracket), contradicting the claim that a string-opening quote is
never recorded. -/
theorem claim_C2_quote_blindness_counterexample :
    findSeparatorIndexes exQuoteBracket = [⟨0, false⟩] ∧
    exQuoteBracket[0]? = some '"' ∧ isQuote '"' = true ∧
    inStringAt exQuoteBracket 1 = true := by decide

/-- C2 (amended): separators are only ever recorded at positions scanned
outside string mode (so a literal `{`, `}` or `,` inside a quoted string
never appears in `findSeparatorIndexes` output); a quote character is
recorded as a separator only when the immediately following character is a
closing bracket; every reported block's `start` and `end` are out-of-string
positions holding `{` and `}` respectively (so quoted braces never open or
close a block); and `findBalancedBlocks` on
`"no { block }" { "real": true }` yields exactly the one real span. -/
theorem claim_C2_quote_blindness_amended :
    (∀ (text : List Char), ∀ sp ∈ findSeparatorIndexes text,
      inStringAt text sp.index = false) ∧
    (∀ (text : List Char), ∀ sp ∈ findSeparatorIndexes text, ∀ c : Char,
      text[sp.index]? = some c → isQuote c = true →
      ∃ n, text[sp.index + 1]? = some n ∧ isCloseBracket n = true) ∧
    (∀ (text : List Char), ∀ b ∈ findBalancedBlocks text,
      inStringAt text b.start = false ∧ inStringAt text b.endIdx = false ∧
      text[b.start]? = some '{' ∧ text[b.endIdx]? = some '}') ∧
    findBalancedBlocks exNoBlock = [⟨15, 30⟩] := by
  refine ⟨?_, ?_, ?_, by decide⟩
  · intro text sp hsp
    exact (findSeparatorIndexes_sound hsp).1
  · intro text sp hsp c hget hq
    obtain ⟨_, c', hget', _, hpred⟩ := findSeparatorIndexes_sound hsp
    rw [hget] at hget'
    injection hget' with hc
    subst hc
    have hnb : isOpenBracket c = false ∧ isCloseBracket c = false ∧
        isCommaSemi c = false := by
      simp only [isQuote, Bool.or_eq_true, beq_iff_eq] at hq
      rcases hq with (rfl | rfl) | rfl <;> exact ⟨by decide, by decide, by decide⟩
    rw [sepPred.eq_def, hnb.1, hnb.2.1, hnb.2.2] at hpred
    simp only [Bool.false_and, Bool.false_or, Bool.or_false] at hpred
    cases hn : text[sp.index + 1]? with
    | none =>
      rw [hn] at hpred
      simp at hpred
    | some n =>
      rw [hn] at hpred
      exact ⟨n, rfl, by simpa using hpred⟩
  · intro text b hb
    have h := findBalancedBlocks_sound hb
    exact ⟨h.2.2.2.2.1, h.2.2.2.2.2, h.2.2.1, h.2.2.2.1⟩

/-- Witness for C2: the amended theorem applied at concrete inputs — the
comma separator of `a,b` is out of string, and the block of `{a},{b}` has
out-of-string braces at its ends. -/
theorem claim_C2_quote_blindness_amended_witness :
    inStringAt exList 1 = false ∧
    (inStringAt exTwo 0 = false ∧ inStringAt exTwo 2 = false ∧
      exTwo[0]? = some '{' ∧ exTwo[2]? = some '}') :=
  ⟨claim_C2_quote_blindness_amended.1 exList ⟨1, true⟩ (by decide),
   claim_C2_quote_blindness_amended.2.2.1 exTwo ⟨0, 2⟩ (by decide)⟩

/-! ## Expansion (`toMultiLine`) lemmas -/

theorem modifyIdx_getElem? (f : List Char → List Char) :
    ∀ (n : Nat) (l : List (List Char)) (m : Nat),
      (modifyIdx f n l)[m]? = if n = m then (l[m]?).map f else l[m]?
  | n, [], m => by
    cases n <;> simp [modifyIdx]
  | 0, cell :: cells, 0 => by simp [modifyIdx]
  | 0, cell :: cells, m + 1 => by simp [modifyIdx]
  | n + 1, cell :: cells, 0 => by simp [modifyIdx]
  | n + 1, cell :: cells, m + 1 => by
    simp only [modifyIdx, List.getElem?_cons_succ, modifyIdx_getElem? f n cells m,
      Nat.add_right_cancel_iff]

theorem foldl_modify_length (o : TransformOptions) :
    ∀ (seps : List SeparatorLocation) (cells : List (List Char)),
      (seps.foldl (fun cs sp => modifyIdx (insertBreak o sp) sp.index cs) cells).length =
        cells.length
  | [], _ => rfl
  | sp :: rest, cells => by
    rw [List.foldl_cons, foldl_modify_length o rest]
    induction sp.index generalizing cells with
    | zero => cases cells <;> rfl
    | succ n ih => cases cells with
      | nil => rfl
      | cons c cs => simp [modifyIdx, ih]

theorem foldl_modify_getElem? (o : TransformOptions) :
    ∀ (seps : List SeparatorLocation) (cells : List (List Char)) (j : Nat),
      List.Pairwise (fun a b => a.index < b.index) seps →
      (seps.foldl (fun cs sp => modifyIdx (insertBreak o sp) sp.index cs) cells)[j]? =
        match seps.find? (fun sp => sp.index == j) with
        | some sp => (cells[j]?).map (insertBreak o sp)
        | none => cells[j]?
  | [], cells, j, _ => by simp [List.find?]
  | sp :: rest, cells, j, hp => by
    rw [List.foldl_cons]
    obtain ⟨hall, hp'⟩ := List.pairwise_cons.mp hp
    by_cases hj : (sp.index == j) = true
    · have hje : sp.index = j := eq_of_beq hj
      have hfindrest : rest.find? (fun sp' => sp'.index == j) = none := by
        apply List.find?_eq_none.mpr
        intro x hx
        have := hall x hx
        simp only [beq_iff_eq]
        omega
      rw [foldl_modify_getElem? o rest _ j hp', hfindrest,
        List.find?_cons_of_pos (p := fun sp' => sp'.index == j) rest hj,
        modifyIdx_getElem?, if_pos hje]
    · have hje : sp.index ≠ j := fun h => hj (by simp [h])
      rw [foldl_modify_getElem? o rest _ j hp',
        List.find?_cons_of_neg (p := fun sp' => sp'.index == j) rest hj]
      cases hfr : rest.find? (fun sp' => sp'.index == j) with
      | some sp' => rw [modifyIdx_getElem?, if_neg hje]
      | none => rw [modifyIdx_getElem?, if_neg hje]

theorem find?_eq_of_mem_pairwise {seps : List SeparatorLocation}
    {sp : SeparatorLocation}
    (hp : List.Pairwise (fun a b => a.index < b.index) seps) (hm : sp ∈ seps) :
    seps.find? (fun s => s.index == sp.index) = some sp := by
  induction seps with
  | nil => cases hm
  | cons a rest ih =>
    obtain ⟨hall, hp'⟩ := List.pairwise_cons.mp hp
    rcases List.mem_cons.mp hm with rfl | hmem
    · exact List.find?_cons_of_pos (p := fun s => s.index == sp.index) (a := sp) rest (by simp)
    · have hne : ¬(a.index == sp.index) = true := by
        have := hall sp hmem
        simp only [beq_iff_eq]
        omega
      rw [List.find?_cons_of_neg (p := fun s => s.index == sp.index) rest hne]
      exact ih hp' hmem

theorem insertBreak_filter (o : TransformOptions) (sp : SeparatorLocation)
    (cell : List Char) :
    (insertBreak o sp cell).filter keepChar = cell.filter keepChar := by
  rw [insertBreak]
  split
  · rw [List.filter_cons, if_neg (by decide)]
  · rw [List.filter_append]
    simp [List.filter_cons]
    decide

theorem modifyIdx_forall₂ {R : List Char → Char → Prop} {f : List Char → List Char}
    (hf : ∀ a b, R a b → R (f a) b) :
    ∀ (n : Nat) {l : List (List Char)} {x : List Char},
      List.Forall₂ R l x → List.Forall₂ R (modifyIdx f n l) x
  | n, [], _, h => by
    cases h
    cases n <;> exact List.Forall₂.nil
  | 0, cell :: cells, _, h => by
    cases h with
    | cons ha ht => exact List.Forall₂.cons (hf _ _ ha) ht
  | n + 1, cell :: cells, _, h => by
    cases h with
    | cons ha ht => exact List.Forall₂.cons ha (modifyIdx_forall₂ hf n ht)

theorem foldl_modify_forall₂ (o : TransformOptions) {R : List Char → Char → Prop}
    (hf : ∀ sp a b, R a b → R (insertBreak o sp a) b) :
    ∀ (seps : List SeparatorLocation) {cells : List (List Char)} {x : List Char},
      List.Forall₂ R cells x →
      List.Forall₂ R
        (seps.foldl (fun cs sp => modifyIdx (insertBreak o sp) sp.index cs) cells) x
  | [], _, _, h => h
  | sp :: rest, cells, x, h => by
    rw [List.foldl_cons]
    exact foldl_modify_forall₂ o hf rest (modifyIdx_forall₂ (hf sp) sp.index h)

theorem forall₂_filter_flatten {cells : List (List Char)} {x : List Char}
    (h : List.Forall₂ (fun cell c => cell.filter keepChar = [c].filter keepChar)
      cells x) :
    cells.flatten.filter keepChar = x.filter keepChar := by
  induction h with
  | nil => rfl
  | cons ha _ ih =>
    rw [List.flatten_cons, List.filter_append, ha, ih, ← List.filter_append,
      List.singleton_append]

theorem expandCells_forall₂ (text : List Char) (o : TransformOptions) :
    List.Forall₂ (fun cell c => cell.filter keepChar = [c].filter keepChar)
      (expandCells text o) text := by
  rw [expandCells]
  apply foldl_modify_forall₂ o
  · intro sp a b hab
    rw [insertBreak_filter]
    exact hab
  · induction text with
    | nil => exact List.Forall₂.nil
    | cons c cs ih => exact List.Forall₂.cons rfl ih

theorem toMultiLine_filter (text : List Char) (o : TransformOptions) :
    (toMultiLine text o).filter keepChar = text.filter keepChar := by
  rw [toMultiLine]
  exact forall₂_filter_flatten (expandCells_forall₂ text o)

theorem flatten_split {cells : List (List Char)} {i : Nat} {ci cj : List Char}
    (hi : cells[i]? = some ci) (hj : cells[i + 1]? = some cj) :
    cells.flatten =
      (cells.take i).flatten ++ ci ++ cj ++ (cells.drop (i + 2)).flatten := by
  obtain ⟨hlt_i, hgi⟩ := List.getElem?_eq_some_iff.mp hi
  obtain ⟨hlt_j, hgj⟩ := List.getElem?_eq_some_iff.mp hj
  conv_lhs => rw [← List.take_append_drop i cells,
    List.drop_eq_getElem_cons hlt_i, List.drop_eq_getElem_cons hlt_j]
  rw [List.flatten_append, List.flatten_cons, List.flatten_cons, hgi, hgj]
  simp [List.append_assoc]

/-! ## Claims C1 and C3 -/

/-- C1 counterexample: for the trimmed, line-break-free buffer `,` the
expand-then-collapse equation holds, yet toggling twice with the same
options does not return the trimmed original: the single inserted break is
at the edge, gets trimmed away, and the second toggle expands again. -/
theorem claim_C1_roundtrip_counterexample :
    trim exComma = exComma ∧ (∀ c ∈ exComma, keepChar c = true) ∧
    toggleLineLayout (toggleLineLayout exComma ⟨false⟩) ⟨false⟩ ≠ exComma ∧
    toggleLineLayout (toggleLineLayout exComma ⟨false⟩) ⟨false⟩ = [',', '\n'] := by
  decide

/-- C1 (amended): for every buffer `x` equal to its own trim and free of
CR/LF/TAB, and every options value, `toSingleLine (toMultiLine x o) = x`;
toggling twice with the same options returns the trimmed original provided
the expanded buffer is still detected as multi-line after trimming (or the
expansion inserted no break at all). -/
theorem claim_C1_roundtrip_amended (x : List Char) (o : TransformOptions)
    (h1 : trim x = x) (h2 : ∀ c ∈ x, keepChar c = true) :
    toSingleLine (toMultiLine x o) = x ∧
    (detectLayout (trim (toMultiLine x o)) = TextLayout.MultiLine →
      toggleLineLayout (toggleLineLayout x o) o = x) ∧
    (toMultiLine x o = x → toggleLineLayout (toggleLineLayout x o) o = x) := by
  have hfx : x.filter keepChar = x := List.filter_eq_self.mpr h2
  have hfy : (toMultiLine x o).filter keepChar = x := by
    rw [toMultiLine_filter, hfx]
  have hpart1 : toSingleLine (toMultiLine x o) = x := by
    rw [toSingleLine, ← filter_trim, hfy, h1]
  have hdx : detectLayout x = TextLayout.SingleLine := by
    rw [detectLayout, if_neg]
    rw [h1]
    intro hany
    obtain ⟨c, hc, hcr⟩ := List.any_eq_true.mp hany
    have := h2 c hc
    simp only [Bool.or_eq_true, beq_iff_eq] at hcr
    rcases hcr with rfl | rfl <;> simp [keepChar, isRNT] at this
  have htogx : x ≠ [] → toggleLineLayout x o = toMultiLine x o := by
    intro hne
    rw [toggleLineLayout, h1, hdx]
    have hlen : (x.length == 0) = false := by
      simp only [beq_eq_false_iff_ne]
      intro h0
      exact hne (List.eq_nil_of_length_eq_zero h0)
    rw [hlen]
    rfl
  refine ⟨hpart1, ?_, ?_⟩
  · intro hdetM
    have hxne : x ≠ [] := by
      intro h0
      subst h0
      have hy : toMultiLine ([] : List Char) o = [] := rfl
      rw [hy] at hdetM
      exact absurd hdetM (by decide)
    have hyne : trim (toMultiLine x o) ≠ [] := by
      intro h0
      rw [detectLayout, h0] at hdetM
      exact absurd hdetM (by decide)
    rw [htogx hxne, toggleLineLayout]
    have hlen : ((trim (toMultiLine x o)).length == 0) = false := by
      simp only [beq_eq_false_iff_ne]
      intro h0
      exact hyne (List.eq_nil_of_length_eq_zero h0)
    rw [hlen]
    have hdet2 : detectLayout (trim (toMultiLine x o)) = TextLayout.MultiLine := hdetM
    rw [hdet2]
    simp only [if_false, if_true, Bool.false_eq_true, reduceIte, beq_self_eq_true]
    rw [toSingleLine, trim_idem, ← toSingleLine]
    exact hpart1
  · intro hyx
    by_cases hxe : x = []
    · subst hxe
      rfl
    · rw [htogx hxe, hyx, htogx hxe, hyx]

/-- Witness for C1 at the buffer `a,b` with both option values: the
round-trip equation and the toggle-twice property hold. -/
theorem claim_C1_roundtrip_amended_witness :
    toSingleLine (toMultiLine exList ⟨false⟩) = exList ∧
    toggleLineLayout (toggleLineLayout exList ⟨false⟩) ⟨false⟩ = exList ∧
    toSingleLine (toMultiLine exList ⟨true⟩) = exList :=
  ⟨(claim_C1_roundtrip_amended exList ⟨false⟩ (by decide) (by decide)).1,
   (claim_C1_roundtrip_amended exList ⟨false⟩ (by decide) (by decide)).2.1 (by decide),
   (claim_C1_roundtrip_amended exList ⟨true⟩ (by decide) (by decide)).1⟩

/-- C3 counterexample: in `"a"]` the final `]` is outside any quoted string
and preceded by a character, yet `toMultiLine` inserts no break before it
(for either option value the output is unchanged), because the preceding
character — the closing quote — is scanned while still in string mode. -/
theorem claim_C3_break_before_close_counterexample :
    exQuoteThenBracket[3]? = some ']' ∧ isCloseBracket ']' = true ∧
    inStringAt exQuoteThenBracket 3 = false ∧
    toMultiLine exQuoteThenBracket ⟨false⟩ = exQuoteThenBracket ∧
    toMultiLine exQuoteThenBracket ⟨true⟩ = exQuoteThenBracket ∧
    '\n' ∉ exQuoteThenBracket := by
  decide

/-- C3 (amended): `toMultiLine` emits a line break immediately before every
closing bracket whose preceding character is scanned outside string mode,
except when `isCommaOnNewLine` is set and the preceding character is a
comma (then the break is placed before that comma instead).  The output
decomposes as `A ++ '\n' :: bracket :: B` where `A` carries exactly the
kept characters of the input prefix up to the bracket. -/
theorem claim_C3_break_before_close_amended (text : List Char)
    (o : TransformOptions) (i : Nat) (cb : Char)
    (hgetj : text[i + 1]? = some cb) (hclose : isCloseBracket cb = true)
    (hstr : inStringAt text i = false)
    (hnotcomma : ¬(o.isCommaOnNewLine = true ∧ text[i]? = some ',')) :
    ∃ A B, toMultiLine text o = A ++ '\n' :: cb :: B ∧
      A.filter keepChar = (text.take (i + 1)).filter keepChar := by
  have hlen1 : i + 1 < text.length := (List.getElem?_eq_some_iff.mp hgetj).1
  have hilt : i < text.length := by omega
  have hci : text[i]? = some text[i] := List.getElem?_eq_getElem hilt
  have hpred : sepPred text[i] (text[i + 1]?) = true := by
    rw [hgetj]
    simp [sepPred, hclose]
  have hmem := findSeparatorIndexes_complete hci hstr hpred
  have hp := findSeparatorIndexes_pairwise text
  have hfind : (findSeparatorIndexes text).find? (fun s => s.index == i) =
      some ⟨i, text[i] == ','⟩ := find?_eq_of_mem_pairwise hp hmem
  have hcbne : (cb == ',') = false := by
    simp only [isCloseBracket, Bool.or_eq_true, beq_iff_eq] at hclose
    rcases hclose with (rfl | rfl) | rfl <;> decide
  have hcells_i : (expandCells text o)[i]? = some [text[i], '\n'] := by
    rw [expandCells, foldl_modify_getElem? o _ _ i hp, hfind, List.getElem?_map,
      hci]
    have hcond : (o.isCommaOnNewLine && ((⟨i, text[i] == ','⟩ :
        SeparatorLocation).isComma)) = false := by
      cases ho : o.isCommaOnNewLine
      · rfl
      · simp only [Bool.true_and]
        have hne : text[i]? ≠ some ',' := fun hcc => hnotcomma ⟨ho, hcc⟩
        rw [hci] at hne
        simp only [beq_eq_false_iff_ne]
        intro hq
        exact hne (by rw [hq])
    simp only [Option.map_some']
    rw [insertBreak.eq_def, if_neg (by rw [hcond]; exact Bool.false_ne_true)]
    rfl
  have hcells_j : ∃ t, (expandCells text o)[i + 1]? = some (cb :: t) := by
    rw [expandCells, foldl_modify_getElem? o _ _ (i + 1) hp]
    cases hf : (findSeparatorIndexes text).find? (fun s => s.index == i + 1) with
    | none =>
      refine ⟨[], ?_⟩
      rw [List.getElem?_map, hgetj]
      rfl
    | some sp' =>
      have hmem' := List.mem_of_find?_eq_some hf
      have hidx : sp'.index = i + 1 := by
        have := List.find?_some hf
        simpa using this
      obtain ⟨_, c', hget', hcomma, _⟩ := findSeparatorIndexes_sound hmem'
      rw [hidx, hgetj] at hget'
      injection hget' with hc
      subst hc
      refine ⟨['\n'], ?_⟩
      rw [List.getElem?_map, hgetj]
      simp only [Option.map_some']
      rw [insertBreak.eq_def, if_neg]
      · rfl
      · rw [hcomma, hcbne, Bool.and_false]
        exact Bool.false_ne_true
  obtain ⟨t, hcj⟩ := hcells_j
  have hsplit := flatten_split hcells_i hcj
  refine ⟨((expandCells text o).take i).flatten ++ [text[i]],
    t ++ ((expandCells text o).drop (i + 2)).flatten, ?_, ?_⟩
  · rw [toMultiLine, hsplit]
    simp [List.append_assoc]
  · have hf2 : List.Forall₂
        (fun cell c => cell.filter keepChar = [c].filter keepChar)
        ((expandCells text o).take i) (text.take i) :=
      List.forall₂_take i (expandCells_forall₂ text o)
    rw [List.filter_append, forall₂_filter_flatten hf2, List.take_succ, hci,
      List.filter_append]
    rfl

/-- Witness for C3 at the buffer `a]` with `isCommaOnNewLine = false`: the
amended theorem produces the decomposition around the closing bracket. -/
theorem claim_C3_break_before_close_amended_witness :
    ∃ A B, toMultiLine exAB ⟨false⟩ = A ++ '\n' :: ']' :: B ∧
      A.filter keepChar = (exAB.take 1).filter keepChar :=
  claim_C3_break_before_close_amended exAB ⟨false⟩ 0 ']' (by decide) (by decide)
    (by decide) (by simp)

/-! ## Compact-blocks lemmas -/

theorem compactLines_getElem? :
    ∀ (blocks : List BalancedBlock) (text indent : List Char) (i : Nat)
      (b : BalancedBlock), blocks[i]? = some b →
      (compactLines text indent blocks)[i]? =
        some (lineFor text indent b
          (match blocks[i + 1]? with
           | some b2 => b2.start
           | none => text.length))
  | [], _, _, _, _, h => by simp at h
  | hd :: rest, text, indent, 0, b, h => by
    rw [List.getElem?_cons_zero, Option.some.injEq] at h
    subst h
    cases rest with
    | nil => simp [compactLines]
    | cons b2 rest2 => simp [compactLines]
  | hd :: rest, text, indent, i + 1, b, h => by
    rw [List.getElem?_cons_succ] at h
    rw [compactLines]
    simp only [List.getElem?_cons_succ]
    exact compactLines_getElem? rest text indent i b h

theorem compactLines_length :
    ∀ (blocks : List BalancedBlock) (text indent : List Char),
      (compactLines text indent blocks).length = blocks.length
  | [], _, _ => rfl
  | hd :: rest, text, indent => by
    rw [compactLines]
    simp only [List.length_cons, compactLines_length rest]

/-- C4: Compact-blocks trailing-content rule — for each discovered block,
with `trailing` the trimmed text between that block's end and the next
block's start (or end of buffer): if `trailing` is exactly a comma or
starts with a comma, the emitted line is indentation + compacted block +
`,` (everything after the comma is discarded); otherwise a non-empty
`trailing` is appended verbatim after one space; an empty `trailing`
appends nothing. -/
theorem claim_C4_trailing_rule (text : List Char) (i : Nat) (b : BalancedBlock)
    (hb : (findBalancedBlocks text)[i]? = some b) :
    ∃ line, (compactResultLines text)[i]? = some line ∧
      ((trim (gapAfter text i)).head? = some ',' →
        line = indentOf text ++ compactedOf text b ++ [',']) ∧
      (trim (gapAfter text i) ≠ [] → (trim (gapAfter text i)).head? ≠ some ',' →
        line = indentOf text ++ compactedOf text b ++ ' ' :: trim (gapAfter text i)) ∧
      (trim (gapAfter text i) = [] → line = indentOf text ++ compactedOf text b) := by
  cases hblocks : findBalancedBlocks text with
  | nil =>
    rw [hblocks] at hb
    simp at hb
  | cons b0 rest =>
    rw [hblocks] at hb
    have hcrl : compactResultLines text =
        compactLines text (indentFor text b0) (b0 :: rest) := by
      rw [compactResultLines, hblocks]
    have hind : indentOf text = indentFor text b0 := by
      rw [indentOf, hblocks]
    have hgap : gapAfter text i = (text.drop (b.endIdx + 1)).take
        ((match (b0 :: rest)[i + 1]? with
          | some b2 => b2.start
          | none => text.length) - (b.endIdx + 1)) := by
      rw [gapAfter]
      simp only [hblocks, hb]
    have hline := compactLines_getElem? (b0 :: rest) text (indentFor text b0) i b hb
    refine ⟨_, by rw [hcrl]; exact hline, ?_, ?_, ?_⟩
    · intro hhead
      rw [lineFor, hind]
      rw [← hgap] at *
      by_cases h1 : (trim (gapAfter text i) == [',']) = true
      · rw [if_pos h1]
      · rw [if_neg h1, if_pos (by rw [hhead]; simp)]
    · intro hne hhead
      rw [lineFor, hind]
      rw [← hgap] at *
      have h1 : ¬(trim (gapAfter text i) == [',']) = true := by
        intro hcontra
        have := eq_of_beq hcontra
        rw [this] at hhead
        exact hhead rfl
      have h2 : ¬((trim (gapAfter text i)).head? == some ',') = true := by
        intro hcontra
        exact hhead (eq_of_beq hcontra)
      rw [if_neg h1, if_neg h2]
      have hie : (trim (gapAfter text i)).isEmpty = false := by
        cases hcase : trim (gapAfter text i) with
        | nil => exact absurd hcase hne
        | cons a t => rfl
      rw [hie]
      rfl
    · intro hempty
      rw [lineFor, hind]
      rw [← hgap] at *
      rw [hempty]
      rw [if_neg (by decide), if_neg (by decide)]
      simp

/-- Witness for C4 at `{a}, x{b}` (comma-prefixed trailing content, the
`x` after the comma is discarded) and at its second block (empty
trailing). -/
theorem claim_C4_trailing_rule_witness :
    ∃ line, (compactResultLines exTwoGap)[0]? = some line ∧
      ((trim (gapAfter exTwoGap 0)).head? = some ',' →
        line = indentOf exTwoGap ++ compactedOf exTwoGap ⟨0, 2⟩ ++ [',']) ∧
      (trim (gapAfter exTwoGap 0) ≠ [] →
        (trim (gapAfter exTwoGap 0)).head? ≠ some ',' →
        line = indentOf exTwoGap ++ compactedOf exTwoGap ⟨0, 2⟩ ++
          ' ' :: trim (gapAfter exTwoGap 0)) ∧
      (trim (gapAfter exTwoGap 0) = [] →
        line = indentOf exTwoGap ++ compactedOf exTwoGap ⟨0, 2⟩) :=
  claim_C4_trailing_rule exTwoGap 0 ⟨0, 2⟩ (by decide)

theorem mem_collapseRNTGo :
    ∀ (b : Bool) (l : List Char) (c : Char),
      c ∈ collapseRNTGo b l → c = ' ' ∨ isRNT c = false
  | _, [], c, h => by simp [collapseRNTGo] at h
  | b, d :: rest, c, h => by
    rw [collapseRNTGo] at h
    by_cases hd : isRNT d = true
    · rw [if_pos hd] at h
      by_cases hb : b = true
      · rw [if_pos hb] at h
        exact mem_collapseRNTGo true rest c h
      · rw [if_neg hb] at h
        rcases List.mem_cons.mp h with rfl | h'
        · exact Or.inl rfl
        · exact mem_collapseRNTGo true rest c h'
    · rw [if_neg hd] at h
      rcases List.mem_cons.mp h with rfl | h'
      · exact Or.inr (Bool.eq_false_iff.mpr hd)
      · exact mem_collapseRNTGo false rest c h'

theorem mem_squashWsGo :
    ∀ (b : Bool) (l : List Char) (c : Char),
      c ∈ squashWsGo b l → c = ' ' ∨ c ∈ l
  | _, [], c, h => by simp [squashWsGo] at h
  | b, d :: rest, c, h => by
    rw [squashWsGo] at h
    by_cases hb : b = true
    · rw [if_pos hb] at h
      by_cases hd : isJSWhitespace d = true
      · rw [if_pos hd] at h
        rcases mem_squashWsGo true rest c h with h' | h'
        · exact Or.inl h'
        · exact Or.inr (List.mem_cons_of_mem d h')
      · rw [if_neg hd] at h
        rcases List.mem_cons.mp h with rfl | h'
        · exact Or.inr (List.mem_cons_self c rest)
        · rcases mem_squashWsGo false rest c h' with h'' | h''
          · exact Or.inl h''
          · exact Or.inr (List.mem_cons_of_mem d h'')
    · rw [if_neg hb] at h
      by_cases hd : isJSWhitespace d = true
      · rw [if_pos hd] at h
        cases hr : rest.head? with
        | some e =>
          rw [hr] at h
          simp only [] at h
          by_cases he : isJSWhitespace e = true
          · rw [if_pos he] at h
            rcases List.mem_cons.mp h with rfl | h'
            · exact Or.inl rfl
            · rcases mem_squashWsGo true rest c h' with h'' | h''
              · exact Or.inl h''
              · exact Or.inr (List.mem_cons_of_mem d h'')
          · rw [if_neg he] at h
            rcases List.mem_cons.mp h with rfl | h'
            · exact Or.inr (List.mem_cons_self c rest)
            · rcases mem_squashWsGo false rest c h' with h'' | h''
              · exact Or.inl h''
              · exact Or.inr (List.mem_cons_of_mem d h'')
        | none =>
          rw [hr] at h
          simp only [] at h
          rcases List.mem_singleton.mp h with rfl
          exact Or.inr (List.mem_cons_self c rest)
      · rw [if_neg hd] at h
        rcases List.mem_cons.mp h with rfl | h'
        · exact Or.inr (List.mem_cons_self c rest)
        · rcases mem_squashWsGo false rest c h' with h'' | h''
          · exact Or.inl h''
          · exact Or.inr (List.mem_cons_of_mem d h'')

theorem mem_braceOpenGo :
    ∀ (b : Bool) (l : List Char) (c : Char),
      c ∈ braceOpenGo b l → c = ' ' ∨ c = '{' ∨ c ∈ l
  | _, [], c, h => by simp [braceOpenGo] at h
  | b, d :: rest, c, h => by
    rw [braceOpenGo] at h
    by_cases h1 : (b && isJSWhitespace d) = true
    · rw [if_pos h1] at h
      rcases mem_braceOpenGo true rest c h with h' | h' | h'
      · exact Or.inl h'
      · exact Or.inr (Or.inl h')
      · exact Or.inr (Or.inr (List.mem_cons_of_mem d h'))
    · rw [if_neg h1] at h
      by_cases h2 : (d == '{') = true
      · rw [if_pos h2] at h
        cases hr : rest.head? with
        | some e =>
          rw [hr] at h
          simp only [] at h
          by_cases he : isJSWhitespace e = true
          · rw [if_pos he] at h
            rcases List.mem_cons.mp h with rfl | h'
            · exact Or.inr (Or.inl rfl)
            · rcases List.mem_cons.mp h' with rfl | h''
              · exact Or.inl rfl
              · rcases mem_braceOpenGo true rest c h'' with h3 | h3 | h3
                · exact Or.inl h3
                · exact Or.inr (Or.inl h3)
                · exact Or.inr (Or.inr (List.mem_cons_of_mem d h3))
          · rw [if_neg he] at h
            rcases List.mem_cons.mp h with rfl | h'
            · exact Or.inr (Or.inl rfl)
            · rcases mem_braceOpenGo false rest c h' with h3 | h3 | h3
              · exact Or.inl h3
              · exact Or.inr (Or.inl h3)
              · exact Or.inr (Or.inr (List.mem_cons_of_mem d h3))
        | none =>
          rw [hr] at h
          simp only [] at h
          rcases List.mem_singleton.mp h with rfl
          exact Or.inr (Or.inl rfl)
      · rw [if_neg h2] at h
        rcases List.mem_cons.mp h with rfl | h'
        · exact Or.inr (Or.inr (List.mem_cons_self c rest))
        · rcases mem_braceOpenGo false rest c h' with h3 | h3 | h3
          · exact Or.inl h3
          · exact Or.inr (Or.inl h3)
          · exact Or.inr (Or.inr (List.mem_cons_of_mem d h3))

theorem mem_spaceBraceGo :
    ∀ (pending l : List Char) (c : Char),
      c ∈ spaceBraceGo pending l → c = ' ' ∨ c = '}' ∨ c ∈ pending ∨ c ∈ l
  | pending, [], c, h => by
    rw [spaceBraceGo] at h
    exact Or.inr (Or.inr (Or.inl h))
  | pending, d :: rest, c, h => by
    rw [spaceBraceGo] at h
    by_cases h1 : isJSWhitespace d = true
    · rw [if_pos h1] at h
      rcases mem_spaceBraceGo (pending ++ [d]) rest c h with h' | h' | h' | h'
      · exact Or.inl h'
      · exact Or.inr (Or.inl h')
      · rcases List.mem_append.mp h' with h'' | h''
        · exact Or.inr (Or.inr (Or.inl h''))
        · rcases List.mem_singleton.mp h'' with rfl
          exact Or.inr (Or.inr (Or.inr (List.mem_cons_self c rest)))
      · exact Or.inr (Or.inr (Or.inr (List.mem_cons_of_mem d h')))
    · rw [if_neg h1] at h
      by_cases h2 : (d == '}') = true
      · rw [if_pos h2] at h
        rcases List.mem_append.mp h with h' | h'
        · by_cases hpe : pending.isEmpty = true
          · rw [if_pos hpe] at h'
            simp at h'
          · rw [if_neg hpe] at h'
            rcases List.mem_singleton.mp h' with rfl
            exact Or.inl rfl
        · rcases List.mem_cons.mp h' with rfl | h''
          · exact Or.inr (Or.inl rfl)
          · rcases mem_spaceBraceGo [] rest c h'' with h3 | h3 | h3 | h3
            · exact Or.inl h3
            · exact Or.inr (Or.inl h3)
            · simp at h3
            · exact Or.inr (Or.inr (Or.inr (List.mem_cons_of_mem d h3)))
      · rw [if_neg h2] at h
        rcases List.mem_append.mp h with h' | h'
        · exact Or.inr (Or.inr (Or.inl h'))
        · rcases List.mem_cons.mp h' with rfl | h''
          · exact Or.inr (Or.inr (Or.inr (List.mem_cons_self c rest)))
          · rcases mem_spaceBraceGo [] rest c h'' with h3 | h3 | h3 | h3
            · exact Or.inl h3
            · exact Or.inr (Or.inl h3)
            · simp at h3
            · exact Or.inr (Or.inr (Or.inr (List.mem_cons_of_mem d h3)))

theorem newline_not_mem_compactedOf (text : List Char) (b : BalancedBlock) :
    '\n' ∉ compactedOf text b := by
  intro h
  rw [compactedOf, spaceBraceClose] at h
  rcases mem_spaceBraceGo [] _ _ h with h1 | h1 | h1 | h1
  · exact absurd h1 (by decide)
  · exact absurd h1 (by decide)
  · simp at h1
  · rw [braceOpenSpace] at h1
    rcases mem_braceOpenGo false _ _ h1 with h2 | h2 | h2
    · exact absurd h2 (by decide)
    · exact absurd h2 (by decide)
    · rw [squashWs] at h2
      rcases mem_squashWsGo false _ _ h2 with h3 | h3
      · exact absurd h3 (by decide)
      · rw [collapseRNT] at h3
        rcases mem_collapseRNTGo false _ _ h3 with h4 | h4
        · exact absurd h4 (by decide)
        · exact absurd h4 (by decide)

theorem collapseRNTGo_false_ne_nil :
    ∀ (l : List Char), l ≠ [] → collapseRNTGo false l ≠ [] := by
  intro l hl
  cases l with
  | nil => exact absurd rfl hl
  | cons d rest =>
    rw [collapseRNTGo]
    by_cases hd : isRNT d = true
    · rw [if_pos hd, if_neg (by decide)]
      exact List.cons_ne_nil _ _
    · rw [if_neg hd]
      exact List.cons_ne_nil _ _

theorem squashWsGo_false_ne_nil :
    ∀ (l : List Char), l ≠ [] → squashWsGo false l ≠ [] := by
  intro l hl
  cases l with
  | nil => exact absurd rfl hl
  | cons d rest =>
    rw [squashWsGo, if_neg (by decide)]
    by_cases hd : isJSWhitespace d = true
    · rw [if_pos hd]
      cases hr : rest.head? with
      | some e =>
        simp only []
        by_cases he : isJSWhitespace e = true
        · rw [if_pos he]
          exact List.cons_ne_nil _ _
        · rw [if_neg he]
          exact List.cons_ne_nil _ _
      | none =>
        simp only []
        exact List.cons_ne_nil _ _
    · rw [if_neg hd]
      exact List.cons_ne_nil _ _

theorem braceOpenGo_false_ne_nil :
    ∀ (l : List Char), l ≠ [] → braceOpenGo false l ≠ [] := by
  intro l hl
  cases l with
  | nil => exact absurd rfl hl
  | cons d rest =>
    rw [braceOpenGo, if_neg (by simp)]
    by_cases h2 : (d == '{') = true
    · rw [if_pos h2]
      cases hr : rest.head? with
      | some e =>
        simp only []
        by_cases he : isJSWhitespace e = true
        · rw [if_pos he]
          exact List.cons_ne_nil _ _
        · rw [if_neg he]
          exact List.cons_ne_nil _ _
      | none =>
        simp only []
        exact List.cons_ne_nil _ _
    · rw [if_neg h2]
      exact List.cons_ne_nil _ _

theorem spaceBraceGo_eq_nil :
    ∀ (pending l : List Char), spaceBraceGo pending l = [] →
      pending = [] ∧ l = []
  | pending, [], h => ⟨h, rfl⟩
  | pending, d :: rest, h => by
    rw [spaceBraceGo] at h
    by_cases h1 : isJSWhitespace d = true
    · rw [if_pos h1] at h
      have := (spaceBraceGo_eq_nil (pending ++ [d]) rest h).1
      exact absurd this (by simp)
    · rw [if_neg h1] at h
      by_cases h2 : (d == '}') = true
      · rw [if_pos h2] at h
        rcases List.append_eq_nil.mp h with ⟨_, h4⟩
        exact absurd h4 (List.cons_ne_nil _ _)
      · rw [if_neg h2] at h
        rcases List.append_eq_nil.mp h with ⟨_, h4⟩
        exact absurd h4 (List.cons_ne_nil _ _)

theorem compactedOf_ne_nil {text : List Char} {b : BalancedBlock}
    (h : rawOf text b ≠ []) : compactedOf text b ≠ [] := by
  rw [compactedOf, spaceBraceClose]
  intro hc
  have h1 := (spaceBraceGo_eq_nil [] _ hc).2
  rw [braceOpenSpace] at h1
  exact braceOpenGo_false_ne_nil _
    (by
      rw [squashWs]
      exact squashWsGo_false_ne_nil _
        (by
          rw [collapseRNT]
          exact collapseRNTGo_false_ne_nil _ h)) h1

theorem rawOf_ne_nil {text : List Char} {b : BalancedBlock}
    (h1 : b.start < b.endIdx) (h2 : b.endIdx < text.length) :
    rawOf text b ≠ [] := by
  rw [← List.length_pos, rawOf, List.length_take, List.length_drop, Nat.lt_min]
  constructor <;> omega

theorem mem_indentFor {text : List Char} {b0 : BalancedBlock} {c : Char}
    (h : c ∈ indentFor text b0) : c = ' ' ∨ c = '\t' := by
  rw [indentFor, List.mem_reverse] at h
  have := List.mem_takeWhile_imp h
  simpa using this

theorem count_newline_intercalate :
    ∀ (lines : List (List Char)), lines ≠ [] → (∀ l ∈ lines, '\n' ∉ l) →
      (List.intercalate ['\n'] lines).count '\n' = lines.length - 1
  | [], h, _ => absurd rfl h
  | [l], _, hno => by
    have hsingle : List.intercalate ['\n'] [l] = l := by
      simp [List.intercalate]
    rw [hsingle]
    simp [List.count_eq_zero.mpr (hno l (List.mem_singleton_self l))]
  | l1 :: l2 :: rest, _, hno => by
    have hstep : List.intercalate ['\n'] (l1 :: l2 :: rest) =
        l1 ++ ['\n'] ++ List.intercalate ['\n'] (l2 :: rest) := by
      simp [List.intercalate, List.intersperse]
    rw [hstep, List.count_append, List.count_append,
      count_newline_intercalate (l2 :: rest) (List.cons_ne_nil _ _)
        (fun l hl => hno l (List.mem_cons_of_mem _ hl)),
      List.count_eq_zero.mpr (hno l1 (List.mem_cons_self _ _))]
    simp only [List.length_cons]
    have hone : (['\n'] : List Char).count '\n' = 1 := by decide
    rw [hone]
    omega

theorem lineFor_gap {text indent : List Char} {b : BalancedBlock}
    {nextStart : Nat}
    (hgapchars : ∀ c ∈ (text.drop (b.endIdx + 1)).take
        (nextStart - (b.endIdx + 1)), c = ',' ∨ isJSWhitespace c = true) :
    lineFor text indent b nextStart = indent ++ compactedOf text b ++ [','] ∨
    lineFor text indent b nextStart = indent ++ compactedOf text b := by
  simp only [lineFor]
  cases hcase : trim ((text.drop (b.endIdx + 1)).take
      (nextStart - (b.endIdx + 1))) with
  | nil =>
    right
    rw [if_neg (by decide), if_neg (by decide), if_pos (by decide)]
    simp
  | cons a t =>
    have ha : isJSWhitespace a = false :=
      trim_head?_not (by rw [hcase]; rfl)
    have hmem : a ∈ (text.drop (b.endIdx + 1)).take (nextStart - (b.endIdx + 1)) :=
      mem_trim (by rw [hcase]; exact List.mem_cons_self a t)
    have hac : a = ',' := by
      rcases hgapchars a hmem with h | h
      · exact h
      · rw [h] at ha
        exact absurd ha (by decide)
    subst hac
    left
    by_cases h1 : ((',' :: t : List Char) == [',']) = true
    · rw [if_pos h1]
    · rw [if_neg h1, if_pos (by simp)]

/-- C5: Compact-blocks line count — for a buffer with exactly `N ≥ 1`
discovered top-level `{...}` spans in which the text between consecutive
blocks and after the last block consists only of commas and whitespace,
`compactBlocks` produces exactly `N` lines (`N - 1` line-break characters,
one line per block, no leading or trailing blank lines). -/
theorem claim_C5_line_count (text : List Char) (N : Nat)
    (hN : (findBalancedBlocks text).length = N) (hpos : 1 ≤ N)
    (hgap : ∀ i, i < N → ∀ c ∈ gapAfter text i,
      c = ',' ∨ isJSWhitespace c = true) :
    (lineSplit (compactBlocks text)).length = N ∧
    (compactBlocks text).count '\n' = N - 1 ∧
    ∀ ln ∈ lineSplit (compactBlocks text), ln ≠ [] := by
  cases hblocks : findBalancedBlocks text with
  | nil =>
    rw [hblocks] at hN
    simp at hN
    omega
  | cons b0 rest =>
    have hlen : (compactLines text (indentFor text b0) (b0 :: rest)).length = N := by
      rw [compactLines_length, ← hblocks, hN]
    have hkey : ∀ ln ∈ compactLines text (indentFor text b0) (b0 :: rest),
        '\n' ∉ ln ∧ ln ≠ [] := by
      intro ln hln
      obtain ⟨j, hj⟩ := List.mem_iff_getElem?.mp hln
      have hjlt : j < (compactLines text (indentFor text b0) (b0 :: rest)).length :=
        (List.getElem?_eq_some_iff.mp hj).1
      have hjb : j < (b0 :: rest).length := by
        rw [compactLines_length] at hjlt
        exact hjlt
      have hbj : (b0 :: rest)[j]? = some (b0 :: rest)[j] :=
        List.getElem?_eq_getElem hjb
      have hline := compactLines_getElem? (b0 :: rest) text (indentFor text b0)
        j (b0 :: rest)[j] hbj
      rw [hj] at hline
      have hlneq : ln = lineFor text (indentFor text b0) (b0 :: rest)[j]
          (match (b0 :: rest)[j + 1]? with
           | some b2 => b2.start
           | none => text.length) := by
        injection hline
      have hmemb : (b0 :: rest)[j] ∈ findBalancedBlocks text := by
        rw [hblocks]
        exact List.getElem_mem hjb
      obtain ⟨hendlt, hstartlt, _, _, _, _⟩ := findBalancedBlocks_sound hmemb
      have hgapj := hgap j (by rw [hlen] at hjlt; exact hjlt)
      have hgapeq : gapAfter text j =
          (text.drop ((b0 :: rest)[j].endIdx + 1)).take
            ((match (b0 :: rest)[j + 1]? with
              | some b2 => b2.start
              | none => text.length) - ((b0 :: rest)[j].endIdx + 1)) := by
        rw [gapAfter]
        simp only [hblocks, hbj]
      rw [hgapeq] at hgapj
      have hcomp : compactedOf text (b0 :: rest)[j] ≠ [] :=
        compactedOf_ne_nil (rawOf_ne_nil hstartlt hendlt)
      rcases lineFor_gap hgapj with hl | hl
      · rw [hlneq, hl]
        constructor
        · intro hmem
          rcases List.mem_append.mp hmem with h1 | h1
          · rcases List.mem_append.mp h1 with h2 | h2
            · rcases mem_indentFor h2 with h3 | h3 <;> exact absurd h3 (by decide)
            · exact newline_not_mem_compactedOf text _ h2
          · simp at h1
        · intro h0
          rcases List.append_eq_nil.mp h0 with ⟨h1, h2⟩
          exact List.cons_ne_nil _ _ h2
      · rw [hlneq, hl]
        constructor
        · intro hmem
          rcases List.mem_append.mp hmem with h1 | h1
          · rcases mem_indentFor h1 with h2 | h2 <;> exact absurd h2 (by decide)
          · exact newline_not_mem_compactedOf text _ h1
        · intro h0
          rcases List.append_eq_nil.mp h0 with ⟨_, h2⟩
          exact hcomp h2
    have hcb : compactBlocks text =
        List.intercalate ['\n'] (compactLines text (indentFor text b0) (b0 :: rest)) := by
      rw [compactBlocks, hblocks]
    have hsplitv : lineSplit (compactBlocks text) =
        compactLines text (indentFor text b0) (b0 :: rest) := by
      rw [hcb, lineSplit]
      exact List.splitOn_intercalate _ '\n' (fun l hl => (hkey l hl).1)
        (by
          intro h0
          rw [h0] at hlen
          simp at hlen
          omega)
    refine ⟨by rw [hsplitv, hlen], ?_, ?_⟩
    · rw [hcb, count_newline_intercalate _
        (by
          intro h0
          rw [h0] at hlen
          simp at hlen
          omega)
        (fun l hl => (hkey l hl).1), hlen]
    · rw [hsplitv]
      intro ln hln
      exact (hkey ln hln).2

/-- Witness for C5 at `{a},{b}` with `N = 2`: two lines, one line break,
no blank lines. -/
theorem claim_C5_line_count_witness :
    (lineSplit (compactBlocks exTwo)).length = 2 ∧
    (compactBlocks exTwo).count '\n' = 2 - 1 ∧
    ∀ ln ∈ lineSplit (compactBlocks exTwo), ln ≠ [] :=
  claim_C5_line_count exTwo 2 (by decide) (by decide)
    (by decide)

end SML

